import Mathlib

/-!
Shallow embedding of the Q-learning grid-world client (`main.py`).

The embedding covers the `QLearningAgent` methods `_state_key`,
`choose_direction`, `valid_directions`, `learn` and `train`, and the
`APIClient.store_points` persistence operation.  Python dictionaries are
modelled as association lists with first-match lookup and
replace-or-append update; Python floats are modelled as exact rationals,
except for the negative-infinity float, which gets its own constructor; the remote
world and the pseudo-random source are modelled as explicit oracles
(a response trace per episode, and streams of coin flips / choice
indices).  A raised Python exception is modelled as `Option.none`.
-/

namespace RLClient

/-- The four cardinal moves `"N" "S" "W" "E"` used by the agent. -/
inductive Dir where
  | N : Dir
  | S : Dir
  | W : Dir
  | E : Dir
deriving DecidableEq, Repr

mutual
/-- A fragment of Python values large enough for the observations the
agent handles: `None`, ints, strings, lists and tuples. -/
inductive PyVal where
  | none : PyVal
  | int : Int → PyVal
  | str : String → PyVal
  | list : PyList → PyVal
  | tuple : PyList → PyVal
deriving DecidableEq, Repr
/-- A sequence of `PyVal`s (the contents of a Python list or tuple). -/
inductive PyList where
  | nil : PyList
  | cons : PyVal → PyList → PyList
deriving DecidableEq, Repr
end

/-- Build a `PyList` from a Lean list of `PyVal`s. -/
def PyList.ofList : List PyVal → PyList
  | [] => .nil
  | v :: vs => .cons v (PyList.ofList vs)

/-- Python `d.get(k, dflt)` on an association-list dictionary:
first matching binding, or the default. -/
def dget {κ β : Type} [DecidableEq κ] : List (κ × β) → κ → β → β
  | [], _, dflt => dflt
  | (k₀, v₀) :: rest, k, dflt => if k₀ = k then v₀ else dget rest k dflt

/-- Python `d[k] = v` on an association-list dictionary: replace the
first binding of `k`, or append a fresh binding. -/
def dset {κ β : Type} [DecidableEq κ] : List (κ × β) → κ → β → List (κ × β)
  | [], k, v => [(k, v)]
  | (k₀, v₀) :: rest, k, v =>
    if k₀ = k then (k, v) :: rest else (k₀, v₀) :: dset rest k v

/-- The agent's value table `self.Q`: a dictionary keyed by
(state key, direction) pairs. -/
abbrev QTable (K : Type) : Type := List ((K × Dir) × ℚ)

/-- The default action set `["N", "S", "W", "E"]`. -/
def defaultDirections : List Dir := [Dir.N, Dir.S, Dir.W, Dir.E]

/-- The `_state_key` method: `tuple(state) if isinstance(state, (list, tuple)) else (state,)`.
Only the top level is converted; elements are copied as-is. -/
def state_key : PyVal → PyList
  | .list xs => xs
  | .tuple xs => xs
  | s => .cons s .nil

/-- Python `max` on a list of numbers (the empty case never arises in
the modelled calls; it is given the junk value 0). -/
def pymax : List ℚ → ℚ
  | [] => 0
  | x :: xs => xs.foldl max x

/-- Python `random.choice(lst)` with the random draw made explicit: `pick`
selects the index modulo the length. -/
def choice (l : List Dir) (pick : ℕ) : Dir :=
  l.getD (pick % l.length) Dir.N

/-- The candidate list `dirs = valid_dirs or self.directions`:
`None` or an empty list falls back to the full action set. -/
def candidate_dirs (directions : List Dir) : Option (List Dir) → List Dir
  | Option.none => directions
  | Option.some l => if l = [] then directions else l

/-- The `choose_direction` method: epsilon-greedy selection.  `coin` models
`random.random()` and `pick` the draw made by `random.choice`. -/
def choose_direction {K : Type} [DecidableEq K] (Q : QTable K)
    (directions : List Dir) (epsilon : ℚ) (sk : K)
    (valid_dirs : Option (List Dir)) (coin : ℚ) (pick : ℕ) : Dir :=
  let dirs := candidate_dirs directions valid_dirs
  if coin < epsilon then choice dirs pick
  else
    let q_vals := dirs.map (fun d => dget Q (sk, d) 0)
    let max_q := pymax q_vals
    let best := (dirs.zip q_vals).filterMap
      (fun p => if p.2 = max_q then Option.some p.1 else Option.none)
    choice best pick

/-- The `valid_directions` method: unpack `x, y = position` (a `ValueError` on a
sequence of length other than 2 is `Option.none`), keep the moves whose
guard holds, and fall back to the full action set when none does. -/
def valid_directions (directions : List Dir) (position : List Int)
    (grid_size : Int) : Option (List Dir) :=
  match position with
  | [x, y] =>
    let m := grid_size - 1
    let dirs :=
      (if x > 0 then [Dir.N] else []) ++ (if x < m then [Dir.S] else []) ++
      (if y > 0 then [Dir.W] else []) ++ (if y < m then [Dir.E] else [])
    Option.some (if dirs = [] then directions else dirs)
  | _ => Option.none

/-- The `learn` method: the Q-learning update for one observed transition. -/
def learn {K : Type} [DecidableEq K] (Q : QTable K) (alpha gamma : ℚ)
    (directions : List Dir) (sk : K) (action : Dir) (reward : ℚ)
    (next_key : K) (done : Bool) : QTable K :=
  let q_val := dget Q (sk, action) 0
  let target :=
    if done then reward
    else reward + gamma * pymax (directions.map (fun d => dget Q (next_key, d) 0))
  dset Q (sk, action) (q_val + alpha * (target - q_val))

/-- The per-episode exploration decay
`self.epsilon = max(self.min_epsilon, self.epsilon * self.decay_rate)`. -/
def decay_step (min_epsilon decay_rate epsilon : ℚ) : ℚ :=
  max min_epsilon (epsilon * decay_rate)

/-- The exploration rate at the start of episode `n` (decay applied once
per completed episode). -/
def epsSeq (min_epsilon decay_rate epsilon0 : ℚ) : ℕ → ℚ
  | 0 => epsilon0
  | n + 1 => decay_step min_epsilon decay_rate (epsSeq min_epsilon decay_rate epsilon0 n)

/-- A Python float that is either negative infinity or an exact number
(the only values `train` and `store_points` handle). -/
inductive NegInfRat where
  | negInf : NegInfRat
  | fin : ℚ → NegInfRat
deriving DecidableEq, Repr

/-- Python `max` on such floats. -/
def niMax : NegInfRat → NegInfRat → NegInfRat
  | .negInf, b => b
  | .fin a, .negInf => .fin a
  | .fin a, .fin b => .fin (max a b)

/-- Python `+` on such floats (`-inf` is absorbing; no `+inf` arises). -/
def niAdd : NegInfRat → NegInfRat → NegInfRat
  | .negInf, _ => .negInf
  | _, .negInf => .negInf
  | .fin a, .fin b => .fin (a + b)

/-- Python `sum(...)`, starting from the int 0. -/
def niSum (l : List NegInfRat) : NegInfRat :=
  l.foldl niAdd (.fin 0)

/-- One team's record in `points.json`: a running total and a
per-world map of stored points. -/
structure TeamRec where
  total : NegInfRat
  by_world : List (String × NegInfRat)
deriving DecidableEq, Repr

/-- The contents of `points.json`: a dictionary from team id to record. -/
abbrev PointsData : Type := List (String × TeamRec)

/-- The `store_points` method: `setdefault` the team record, overwrite the
world entry, and recompute the total as the sum of all per-world values. -/
def store_points (data : PointsData) (team_id world_id : String)
    (points : NegInfRat) : PointsData :=
  let team := dget data team_id ⟨.fin 0, []⟩
  let bw := dset team.by_world world_id points
  dset data team_id ⟨niSum (bw.map (fun p => p.2)), bw⟩

/-- A `make_move` response with every field the loop reads optional
(`res.get` with a default). -/
structure RawMoveRes where
  reward : Option ℚ
  completed : Option Bool
  position : Option (List Int)
  worldId : Option PyVal
deriving DecidableEq, Repr

/-- A `get_location` response with the fields the loop reads optional. -/
structure RawLoc where
  worldId : Option PyVal
  position : Option (List Int)
deriving DecidableEq, Repr

/-- The key `_state_key((w, tuple(position)))` built by the training loop. -/
def mk_key (w : PyVal) (position : List Int) : PyList :=
  state_key (.tuple (.cons w (.cons (.tuple (PyList.ofList (position.map PyVal.int))) .nil)))

/-- The values produced by one pass of the loop body after the move
response arrives (lines `reward = ...` through `total += reward`). -/
structure TransOut where
  Q : QTable PyList
  next_key : PyList
  done : Bool
  position : List Int
  total : ℚ
deriving Repr

/-- One transition of the training loop: extract `reward`, `completed`
and `position` with their defaults, build the next state key, apply
`learn`, and accumulate the reward. -/
def trans_step (Q : QTable PyList) (alpha gamma : ℚ) (directions : List Dir)
    (sk : PyList) (move : Dir) (total : ℚ) (res : RawMoveRes) : TransOut :=
  let reward := res.reward.getD 0
  let done := res.completed.getD false
  let position := res.position.getD []
  let next_key := mk_key (res.worldId.getD .none) position
  let Q2 := learn Q alpha gamma directions sk move reward next_key done
  ⟨Q2, next_key, done, position, total + reward⟩

/-- Episode initialisation (after `enter_world` / `get_location`):
`position = loc.get("position", [])` and the initial state key. -/
def episode_init (loc : RawLoc) : PyList × List Int :=
  let position := loc.position.getD []
  (mk_key (loc.worldId.getD .none) position, position)

/-- The world's behaviour during one episode: the location report and
the successive `make_move` responses. -/
structure EpisodeTrace where
  loc : RawLoc
  results : List RawMoveRes
deriving DecidableEq, Repr

/-- The inner `while not done` loop, driven by the episode's response
trace.  An exhausted trace (the world never reports completion) models
divergence; an unpackable position models the `ValueError` raised by
`valid_directions`.  `n` counts consumed random draws. -/
def run_episode (alpha gamma : ℚ) (directions : List Dir)
    (coins : ℕ → ℚ) (picks : ℕ → ℕ) (epsilon : ℚ) :
    QTable PyList → PyList → List Int → ℚ → ℕ → List RawMoveRes →
    Option (QTable PyList × ℚ × ℕ)
  | _, _, _, _, _, [] => Option.none
  | Q, sk, position, total, n, res :: rest =>
    match valid_directions directions position 40 with
    | Option.none => Option.none
    | Option.some valid =>
      let move := choose_direction Q directions epsilon sk (Option.some valid)
        (coins n) (picks n)
      let out := trans_step Q alpha gamma directions sk move total res
      if out.done then Option.some (out.Q, out.total, n + 1)
      else run_episode alpha gamma directions coins picks epsilon
        out.Q out.next_key out.position out.total (n + 1) rest

/-- The outer `for _ in range(self.episodes)` loop: run each episode,
track the best cumulative reward, and decay the exploration rate. -/
def train_loop (alpha gamma min_epsilon decay_rate : ℚ) (directions : List Dir)
    (coins : ℕ → ℚ) (picks : ℕ → ℕ) :
    QTable PyList → ℚ → NegInfRat → ℕ → List EpisodeTrace →
    Option (QTable PyList × ℚ × NegInfRat × ℕ)
  | Q, epsilon, best, n, [] => Option.some (Q, epsilon, best, n)
  | Q, epsilon, best, n, t :: rest =>
    match run_episode alpha gamma directions coins picks epsilon
      Q (episode_init t.loc).1 (episode_init t.loc).2 0 n t.results with
    | Option.none => Option.none
    | Option.some (Q2, total, n2) =>
      train_loop alpha gamma min_epsilon decay_rate directions coins picks
        Q2 (decay_step min_epsilon decay_rate epsilon) (niMax best (.fin total)) n2 rest

/-- The `train` method: start the best reward at negative infinity with an empty value
table, run the configured episodes (one trace per episode; `enter_world`
has no modelled effect), then `store_points(world_id, best_reward)` and
return the best reward. -/
def train (alpha gamma epsilon min_epsilon decay_rate : ℚ)
    (directions : List Dir) (coins : ℕ → ℚ) (picks : ℕ → ℕ)
    (team_id world_id : String) (data : PointsData)
    (traces : List EpisodeTrace) : Option (NegInfRat × PointsData) :=
  (train_loop alpha gamma min_epsilon decay_rate directions coins picks
      [] epsilon .negInf 0 traces).map
    (fun out => (out.2.2.1, store_points data team_id world_id out.2.2.1))

/-- The cumulative reward of an episode trace: rewards of the responses
up to and including the first completed one. -/
def episode_total : List RawMoveRes → ℚ
  | [] => 0
  | res :: rest =>
    if res.completed.getD false then res.reward.getD 0
    else res.reward.getD 0 + episode_total rest

/-- The maximum per-episode cumulative reward over a trace list,
starting from negative infinity. -/
def best_of (traces : List EpisodeTrace) : NegInfRat :=
  traces.foldl (fun b t => niMax b (.fin (episode_total t.results))) .negInf

/-- An episode trace the training loop terminates on: the initial and
every reported position unpacks as a pair, and the world eventually
reports completion. -/
def WFTrace (t : EpisodeTrace) : Prop :=
  (t.loc.position.getD []).length = 2 ∧
  (∀ res ∈ t.results, (res.position.getD []).length = 2) ∧
  (∃ res ∈ t.results, res.completed.getD false = true)

instance (t : EpisodeTrace) : Decidable (WFTrace t) := by
  unfold WFTrace
  exact inferInstance

/-- The observation `(5, (3, 4))`: a tuple whose second component is a
tuple. -/
def obsNestedTuple : PyVal :=
  .tuple (.cons (.int 5) (.cons (.tuple (.cons (.int 3) (.cons (.int 4) .nil))) .nil))

/-- The observation `(5, [3, 4])`: a tuple whose second component is a
list. -/
def obsNestedList : PyVal :=
  .tuple (.cons (.int 5) (.cons (.list (.cons (.int 3) (.cons (.int 4) .nil))) .nil))

/-- A concrete one-episode world behaviour used to instantiate the
training-loop theorems: start at `(0, 0)` in world 7, one move worth
reward 5 that completes the episode. -/
def sampleTrace : EpisodeTrace :=
  ⟨⟨Option.some (.int 7), Option.some [0, 0]⟩,
   [⟨Option.some 5, Option.some true, Option.some [0, 1], Option.some (.int 7)⟩]⟩

/-- Modelled from the spec: the move the legality guards protect
against, absent from `src` (the world server applies it).  `N`/`S`
decrement/increment the first coordinate, `W`/`E` the second, matching
the guards of `valid_directions`. -/
def grid_move : Dir → Int × Int → Int × Int
  | .N, (x, y) => (x - 1, y)
  | .S, (x, y) => (x + 1, y)
  | .W, (x, y) => (x, y - 1)
  | .E, (x, y) => (x, y + 1)

/-- Both coordinates within `[0, size - 1]`. -/
def in_grid (size : Int) (p : Int × Int) : Prop :=
  0 ≤ p.1 ∧ p.1 ≤ size - 1 ∧ 0 ≤ p.2 ∧ p.2 ≤ size - 1

instance (size : Int) (p : Int × Int) : Decidable (in_grid size p) := by
  unfold in_grid
  exact inferInstance

end RLClient

namespace RLClient

theorem dget_dset_self {κ β : Type} [DecidableEq κ] (m : List (κ × β)) (k : κ)
    (v dflt : β) : dget (dset m k v) k dflt = v := by
  induction m with
  | nil => simp [dset, dget]
  | cons hd tl ih =>
    obtain ⟨k₀, v₀⟩ := hd
    by_cases h : k₀ = k
    · simp [dset, dget, h]
    · simp [dset, dget, h, ih]

theorem dget_dset_ne {κ β : Type} [DecidableEq κ] (m : List (κ × β)) (k k' : κ)
    (v dflt : β) (h : k' ≠ k) : dget (dset m k v) k' dflt = dget m k' dflt := by
  have hne : ¬ k = k' := fun e => h e.symm
  induction m with
  | nil =>
    simp only [dset, dget]
    rw [if_neg hne]
  | cons hd tl ih =>
    obtain ⟨k₀, v₀⟩ := hd
    by_cases h₀ : k₀ = k
    · subst h₀
      simp only [dset, if_pos rfl, dget]
      rw [if_neg hne, if_neg hne]
    · simp only [dset, if_neg h₀, dget, ih]

theorem foldl_max_choice (xs : List ℚ) (x : ℚ) :
    xs.foldl max x = x ∨ xs.foldl max x ∈ xs := by
  induction xs generalizing x with
  | nil => left; rfl
  | cons y ys ih =>
    simp only [List.foldl_cons]
    rcases ih (max x y) with h | h
    · rcases max_choice x y with e | e
      · left; rw [h, e]
      · right; rw [h, e]; exact List.mem_cons_self _ _
    · right; exact List.mem_cons_of_mem _ h

theorem pymax_mem (l : List ℚ) (h : l ≠ []) : pymax l ∈ l := by
  match l with
  | [] => exact absurd rfl h
  | x :: xs =>
    rcases foldl_max_choice xs x with e | e
    · rw [pymax, e]; exact List.mem_cons_self _ _
    · rw [pymax]; exact List.mem_cons_of_mem _ e

theorem zip_map_self {α β : Type} (f : α → β) (l : List α) :
    l.zip (l.map f) = l.map (fun a => (a, f a)) := by
  induction l with
  | nil => rfl
  | cons x xs ih => simp [ih]

theorem choice_mem (l : List Dir) (pick : ℕ) (h : l ≠ []) : choice l pick ∈ l := by
  have hl : 0 < l.length := List.length_pos.mpr h
  have hm : pick % l.length < l.length := Nat.mod_lt _ hl
  rw [choice, List.getD_eq_getElem l Dir.N hm]
  exact List.getElem_mem hm

theorem candidate_dirs_ne_nil (directions : List Dir) (hdir : directions ≠ [])
    (vd : Option (List Dir)) : candidate_dirs directions vd ≠ [] := by
  cases vd with
  | none => exact hdir
  | some l =>
    by_cases h : l = []
    · simp [candidate_dirs, h, hdir]
    · simp [candidate_dirs, h]

theorem choose_direction_mem {K : Type} [DecidableEq K] (Q : QTable K)
    (directions : List Dir) (hdir : directions ≠ []) (epsilon : ℚ) (sk : K)
    (vd : Option (List Dir)) (coin : ℚ) (pick : ℕ) :
    choose_direction Q directions epsilon sk vd coin pick ∈ candidate_dirs directions vd := by
  have hd : candidate_dirs directions vd ≠ [] := candidate_dirs_ne_nil directions hdir vd
  unfold choose_direction
  by_cases hc : coin < epsilon
  · simp only [hc, if_true]
    exact choice_mem _ _ hd
  · simp only [hc, if_false]
    set dirs := candidate_dirs directions vd with hdirs
    set f : Dir → ℚ := fun d => dget Q (sk, d) 0 with hf
    have hzip : dirs.zip (dirs.map f) = dirs.map (fun d => (d, f d)) := zip_map_self f dirs
    rw [hzip, List.filterMap_map]
    set max_q := pymax (dirs.map f) with hmq
    have hmem : max_q ∈ dirs.map f := pymax_mem _ (by simpa using hd)
    obtain ⟨d, hdm, hfd⟩ := List.mem_map.mp hmem
    set best := dirs.filterMap
      (fun a => (fun p : Dir × ℚ => if p.2 = max_q then Option.some p.1 else Option.none) (a, f a))
      with hbest
    have hdbest : d ∈ best := by
      rw [hbest]
      exact List.mem_filterMap.mpr ⟨d, hdm, by simp [hfd]⟩
    have hbne : best ≠ [] := List.ne_nil_of_mem hdbest
    have hsub : ∀ a ∈ best, a ∈ dirs := by
      intro a ha
      rw [hbest] at ha
      obtain ⟨b, hb, he⟩ := List.mem_filterMap.mp ha
      by_cases hcond : f b = max_q
      · simp [hcond] at he
        exact he ▸ hb
      · simp [hcond] at he
    exact hsub _ (choice_mem best pick hbne)

/-- C1: a terminal update (`done = true`) sets the entry for
`(state_key, action)` to `old + alpha * (reward - old)`; neither the
discount factor nor any next-state entry appears in the result. -/
theorem claim_C1_terminal_update {K : Type} [DecidableEq K] (Q : QTable K)
    (alpha gamma : ℚ) (directions : List Dir) (sk : K) (action : Dir)
    (reward : ℚ) (next_key : K) :
    dget (learn Q alpha gamma directions sk action reward next_key true) (sk, action) 0
      = dget Q (sk, action) 0 + alpha * (reward - dget Q (sk, action) 0) := by
  unfold learn
  simp [dget_dset_self]

/-- C2: a non-terminal update (`done = false`) sets the entry for
`(state_key, action)` to `old + alpha * (reward + gamma * m - old)`
where `m` is the maximum of the four next-state entries over the full
fixed action set, each defaulting to 0 when unseen. -/
theorem claim_C2_nonterminal_update {K : Type} [DecidableEq K] (Q : QTable K)
    (alpha gamma : ℚ) (sk : K) (action : Dir) (reward : ℚ) (next_key : K) :
    dget (learn Q alpha gamma defaultDirections sk action reward next_key false) (sk, action) 0
      = dget Q (sk, action) 0 +
          alpha * (reward + gamma *
            (max (max (max (dget Q (next_key, Dir.N) 0) (dget Q (next_key, Dir.S) 0))
              (dget Q (next_key, Dir.W) 0)) (dget Q (next_key, Dir.E) 0))
            - dget Q (sk, action) 0) := by
  unfold learn defaultDirections pymax
  simp [dget_dset_self]

end RLClient

namespace RLClient

/-- C3 counterexample: with minimum 1, decay factor 1 (inside `(0,1]`)
and initial exploration rate 0, the rate at the start of episode 1 is
larger than at the start of episode 0: the floor raises a start value
below the minimum, so the sequence is not non-increasing for every
initial rate. -/
theorem claim_C3_counterexample :
    (0 : ℚ) < 1 ∧ (1 : ℚ) ≤ 1 ∧ epsSeq 1 1 0 0 < epsSeq 1 1 0 1 := by
  refine ⟨by norm_num, le_refl 1, ?_⟩
  norm_num [epsSeq, decay_step]

/-- C3 (amended): when the configured minimum is non-negative and the
initial exploration rate is at least the minimum, every decayed value
stays at or above the minimum and the episode-start sequence is
monotonically non-increasing, for every decay factor in `(0,1]`. -/
theorem claim_C3_amended (min_epsilon decay_rate epsilon0 : ℚ) (n : ℕ)
    (hmin : 0 ≤ min_epsilon) (hstart : min_epsilon ≤ epsilon0)
    (hdec0 : 0 < decay_rate) (hdec1 : decay_rate ≤ 1) :
    min_epsilon ≤ epsSeq min_epsilon decay_rate epsilon0 (n + 1) ∧
      epsSeq min_epsilon decay_rate epsilon0 (n + 1) ≤
        epsSeq min_epsilon decay_rate epsilon0 n := by
  have hge : ∀ m : ℕ, min_epsilon ≤ epsSeq min_epsilon decay_rate epsilon0 m := by
    intro m
    induction m with
    | zero => exact hstart
    | succ m ih =>
      simp only [epsSeq, decay_step]
      exact le_max_left _ _
  constructor
  · simp only [epsSeq, decay_step]
    exact le_max_left _ _
  · simp only [epsSeq, decay_step]
    exact max_le (hge n) (mul_le_of_le_one_right (le_trans hmin (hge n)) hdec1)

/-- C3 witness: minimum 1, decay 1, initial rate 2, one step. -/
theorem claim_C3_witness :
    (1 : ℚ) ≤ epsSeq 1 1 2 (0 + 1) ∧ epsSeq 1 1 2 (0 + 1) ≤ epsSeq 1 1 2 0 :=
  claim_C3_amended 1 1 2 0 (by decide) (by decide) (by decide) (by decide)

/-- C4 counterexample: the observations `(5, (3, 4))` and `(5, [3, 4])`
normalize to different keys, because only the top level is converted to
a tuple and the nested list survives as a list. -/
theorem claim_C4_counterexample :
    state_key obsNestedTuple ≠ state_key obsNestedList := by decide

/-- C4 (amended): the normalization maps top-level lists and tuples
with equal elements to the same key and wraps scalars into one-element
keys, but it does not normalize nested components: observations that
differ only in a nested component's container type, such as
`(5, (3, 4))` and `(5, [3, 4])`, produce different keys. -/
theorem claim_C4_amended :
    (∀ xs : PyList, state_key (.list xs) = state_key (.tuple xs)) ∧
    (∀ n : Int, state_key (.int n) = .cons (.int n) .nil) ∧
    (∀ s : String, state_key (.str s) = .cons (.str s) .nil) ∧
    state_key .none = .cons .none .nil ∧
    state_key obsNestedTuple ≠ state_key obsNestedList :=
  ⟨fun _ => rfl, fun _ => rfl, fun _ => rfl, rfl, by decide⟩

/-- C5: `learn` overwrites exactly the entry for the
`(state_key, action)` pair passed in — every other entry reads back
unchanged — and that entry afterwards holds exactly the value computed
for this transition. -/
theorem claim_C5_frame {K : Type} [DecidableEq K] (Q : QTable K)
    (alpha gamma : ℚ) (directions : List Dir) (sk : K) (action : Dir)
    (reward : ℚ) (next_key : K) (done : Bool) (p : K × Dir)
    (hp : p ≠ (sk, action)) :
    dget (learn Q alpha gamma directions sk action reward next_key done) p 0
        = dget Q p 0 ∧
    dget (learn Q alpha gamma directions sk action reward next_key done) (sk, action) 0
        = dget Q (sk, action) 0 + alpha *
            ((if done then reward
              else reward + gamma * pymax (directions.map (fun d => dget Q (next_key, d) 0)))
              - dget Q (sk, action) 0) := by
  constructor
  · unfold learn
    exact dget_dset_ne Q (sk, action) p _ 0 hp
  · unfold learn
    simp [dget_dset_self]

/-- C5 witness: an update at key `(0, N)` leaves the entry at `(1, S)`
unchanged and writes the computed value at `(0, N)`. -/
theorem claim_C5_witness :
    dget (learn ([] : QTable ℕ) 1 1 defaultDirections 0 Dir.N 3 0 true) (1, Dir.S) 0 = 0 ∧
    dget (learn ([] : QTable ℕ) 1 1 defaultDirections 0 Dir.N 3 0 true) (0, Dir.N) 0
      = 0 + 1 * (3 - 0) :=
  claim_C5_frame [] 1 1 defaultDirections 0 Dir.N 3 0 true (1, Dir.S) (by decide)

/-- C6: on a 40-grid the legal directions are exactly S, E at `(0,0)`,
exactly N, W at `(39,39)` and exactly N, E at `(39,0)`; in general, for
any in-grid position, a direction is returned iff the move it denotes
keeps both coordinates within `[0, 39]`. -/
theorem claim_C6_legal_boundary :
    valid_directions defaultDirections [0, 0] 40 = Option.some [Dir.S, Dir.E] ∧
    valid_directions defaultDirections [39, 39] 40 = Option.some [Dir.N, Dir.W] ∧
    valid_directions defaultDirections [39, 0] 40 = Option.some [Dir.N, Dir.E] ∧
    ∀ x y : Int, 0 ≤ x → x ≤ 39 → 0 ≤ y → y ≤ 39 → ∀ d : Dir,
      (d ∈ (valid_directions defaultDirections [x, y] 40).getD [] ↔
        in_grid 40 (grid_move d (x, y))) := by
  refine ⟨by decide, by decide, by decide, ?_⟩
  intro x y hx0 hx39 hy0 hy39 d
  have h40 : (40 : Int) - 1 = 39 := by norm_num
  by_cases h1 : x > 0 <;> by_cases h2 : x < 39 <;> by_cases h3 : y > 0 <;>
      by_cases h4 : y < 39 <;> cases d <;>
    simp [valid_directions, h40, h1, h2, h3, h4, in_grid, grid_move, defaultDirections] <;>
    omega

/-- C6 witness: at in-grid position `(5, 0)` the direction N is
returned exactly because the move it denotes stays in the grid. -/
theorem claim_C6_witness :
    Dir.N ∈ (valid_directions defaultDirections [5, 0] 40).getD [] ↔
      in_grid 40 (grid_move Dir.N (5, 0)) :=
  claim_C6_legal_boundary.2.2.2 5 0 (by decide) (by decide) (by decide) (by decide) Dir.N

theorem ite_nil_ne (directions l : List Dir) (hdir : directions ≠ []) :
    (if l = [] then directions else l) ≠ [] := by
  by_cases h : l = []
  · simp [h, hdir]
  · simp [h]

/-- C7: with a non-empty configured action set, `valid_directions`
always yields a non-empty list on any unpackable position (falling back
to the full set); `choose_direction` falls back to the full set when the
legal list is absent or empty; and its result is always a member of its
non-empty candidate set. -/
theorem claim_C7_nonempty {K : Type} [DecidableEq K] (Q : QTable K)
    (directions : List Dir) (hdir : directions ≠ []) (epsilon : ℚ) (sk : K)
    (coin : ℚ) (pick : ℕ) (x y grid_size : Int) (vd : Option (List Dir)) :
    valid_directions directions [x, y] grid_size ≠ Option.none ∧
    (valid_directions directions [x, y] grid_size).getD [] ≠ [] ∧
    choose_direction Q directions epsilon sk Option.none coin pick ∈ directions ∧
    choose_direction Q directions epsilon sk (Option.some []) coin pick ∈ directions ∧
    candidate_dirs directions vd ≠ [] ∧
    choose_direction Q directions epsilon sk vd coin pick ∈ candidate_dirs directions vd := by
  refine ⟨?_, ?_, ?_, ?_, candidate_dirs_ne_nil directions hdir vd,
    choose_direction_mem Q directions hdir epsilon sk vd coin pick⟩
  · simp [valid_directions]
  · simp only [valid_directions, Option.getD_some]
    exact ite_nil_ne _ _ hdir
  · exact choose_direction_mem Q directions hdir epsilon sk Option.none coin pick
  · exact choose_direction_mem Q directions hdir epsilon sk (Option.some []) coin pick

/-- C7 witness: instantiated at the origin with the default action set,
an empty table, and fixed random draws. -/
theorem claim_C7_witness :
    valid_directions defaultDirections [0, 0] 40 ≠ Option.none ∧
    (valid_directions defaultDirections [0, 0] 40).getD [] ≠ [] ∧
    choose_direction ([] : QTable String) defaultDirections 1 "s" Option.none 0 0
        ∈ defaultDirections ∧
    choose_direction ([] : QTable String) defaultDirections 1 "s" (Option.some []) 0 0
        ∈ defaultDirections ∧
    candidate_dirs defaultDirections Option.none ≠ [] ∧
    choose_direction ([] : QTable String) defaultDirections 1 "s" Option.none 0 0
        ∈ candidate_dirs defaultDirections Option.none :=
  claim_C7_nonempty [] defaultDirections (by decide) 1 "s" 0 0 0 0 40 Option.none

end RLClient

namespace RLClient

theorem length_two_pair (l : List Int) (h : l.length = 2) : ∃ x y : Int, l = [x, y] := by
  cases l with
  | nil => simp at h
  | cons a t =>
    cases t with
    | nil => simp at h
    | cons b t2 =>
      cases t2 with
      | nil => exact ⟨a, b, rfl⟩
      | cons c t3 => simp at h

theorem run_episode_spec (alpha gamma : ℚ) (directions : List Dir)
    (coins : ℕ → ℚ) (picks : ℕ → ℕ) (epsilon : ℚ) :
    ∀ (results : List RawMoveRes) (Q : QTable PyList) (sk : PyList)
      (pos : List Int) (total : ℚ) (n : ℕ),
      pos.length = 2 →
      (∀ res ∈ results, (res.position.getD []).length = 2) →
      (∃ res ∈ results, res.completed.getD false = true) →
      (run_episode alpha gamma directions coins picks epsilon Q sk pos total n results
          ≠ Option.none ∧
        ∀ z : QTable PyList × ℚ × ℕ,
          run_episode alpha gamma directions coins picks epsilon Q sk pos total n results
            = Option.some z → z.2.1 = total + episode_total results) := by
  intro results
  induction results with
  | nil =>
    intro Q sk pos total n _ _ hex
    simp at hex
  | cons res rest ih =>
    intro Q sk pos total n hpos hall hex
    obtain ⟨x, y, rfl⟩ := length_two_pair pos hpos
    by_cases hdone : res.completed.getD false = true
    · constructor
      · intro hcontra
        simp [run_episode, valid_directions, trans_step, hdone] at hcontra
      · intro z hz
        simp only [run_episode, valid_directions, trans_step, hdone, if_true,
          Option.some.injEq] at hz
        subst hz
        simp [episode_total, hdone]
    · have hdone' : res.completed.getD false = false := by
        revert hdone
        cases res.completed.getD false <;> simp
      have hpos2 : (res.position.getD []).length = 2 :=
        hall res (List.mem_cons_self _ _)
      have hall' : ∀ r ∈ rest, (r.position.getD []).length = 2 :=
        fun r hr => hall r (List.mem_cons_of_mem _ hr)
      have hex' : ∃ r ∈ rest, r.completed.getD false = true := by
        rcases hex with ⟨r, hr, hc⟩
        rcases List.mem_cons.mp hr with he | hr'
        · exact absurd (he ▸ hc) hdone
        · exact ⟨r, hr', hc⟩
      constructor
      · intro hcontra
        simp only [run_episode, valid_directions, trans_step, hdone', if_false,
          Bool.false_eq_true] at hcontra
        exact (ih _ _ _ _ _ hpos2 hall' hex').1 hcontra
      · intro z hz
        simp only [run_episode, valid_directions, trans_step, hdone', if_false,
          Bool.false_eq_true] at hz
        have := (ih _ _ _ _ _ hpos2 hall' hex').2 z hz
        rw [this]
        simp [episode_total, hdone']
        ring

theorem train_loop_spec (alpha gamma min_epsilon decay_rate : ℚ)
    (directions : List Dir) (coins : ℕ → ℚ) (picks : ℕ → ℕ) :
    ∀ (traces : List EpisodeTrace) (Q : QTable PyList) (epsilon : ℚ)
      (best : NegInfRat) (n : ℕ),
      (∀ t ∈ traces, WFTrace t) →
      (train_loop alpha gamma min_epsilon decay_rate directions coins picks
          Q epsilon best n traces ≠ Option.none ∧
        ∀ z : QTable PyList × ℚ × NegInfRat × ℕ,
          train_loop alpha gamma min_epsilon decay_rate directions coins picks
              Q epsilon best n traces = Option.some z →
            z.2.2.1 = traces.foldl
              (fun b t => niMax b (.fin (episode_total t.results))) best) := by
  intro traces
  induction traces with
  | nil =>
    intro Q epsilon best n _
    constructor
    · simp [train_loop]
    · intro z hz
      simp only [train_loop, Option.some.injEq] at hz
      subst hz
      rfl
  | cons t rest ih =>
    intro Q epsilon best n hwf
    obtain ⟨hlen, hall, hex⟩ := hwf t (List.mem_cons_self _ _)
    obtain ⟨hne, heq⟩ := run_episode_spec alpha gamma directions coins picks epsilon
      t.results Q (episode_init t.loc).1 (episode_init t.loc).2 0 n hlen hall hex
    have hwf' : ∀ t' ∈ rest, WFTrace t' :=
      fun t' ht' => hwf t' (List.mem_cons_of_mem _ ht')
    cases hval : run_episode alpha gamma directions coins picks epsilon
        Q (episode_init t.loc).1 (episode_init t.loc).2 0 n t.results with
    | none => exact absurd hval hne
    | some val =>
      obtain ⟨Q2, total2, n2⟩ := val
      have htot : total2 = episode_total t.results := by
        have h := heq (Q2, total2, n2) hval
        rw [zero_add] at h
        exact h
      constructor
      · intro hcontra
        simp only [train_loop] at hcontra
        rw [hval] at hcontra
        exact (ih Q2 (decay_step min_epsilon decay_rate epsilon)
          (niMax best (.fin total2)) n2 hwf').1 hcontra
      · intro z hz
        simp only [train_loop] at hz
        rw [hval] at hz
        have h2 := (ih Q2 (decay_step min_epsilon decay_rate epsilon)
          (niMax best (.fin total2)) n2 hwf').2 z hz
        rw [h2, htot]
        simp [List.foldl_cons]

end RLClient

namespace RLClient

/-- C8: when every episode trace is well-formed (positions unpack and
the world eventually reports completion), `train` returns the maximum
over episodes of the per-episode cumulative reward and hands exactly
that value, keyed by the world identifier, to `store_points`; the
stored per-world record afterwards holds that value. -/
theorem claim_C8_best_reward (alpha gamma epsilon min_epsilon decay_rate : ℚ)
    (directions : List Dir) (coins : ℕ → ℚ) (picks : ℕ → ℕ)
    (team_id world_id : String) (data : PointsData)
    (traces : List EpisodeTrace) (hwf : ∀ t ∈ traces, WFTrace t) :
    train alpha gamma epsilon min_epsilon decay_rate directions coins picks
        team_id world_id data traces
      = Option.some (best_of traces,
          store_points data team_id world_id (best_of traces)) ∧
    dget (dget (store_points data team_id world_id (best_of traces))
        team_id ⟨.fin 0, []⟩).by_world world_id (.fin 0) = best_of traces := by
  obtain ⟨hne, heq⟩ := train_loop_spec alpha gamma min_epsilon decay_rate
    directions coins picks traces [] epsilon .negInf 0 hwf
  constructor
  · cases hval : train_loop alpha gamma min_epsilon decay_rate directions coins picks
        [] epsilon .negInf 0 traces with
    | none => exact absurd hval hne
    | some z =>
      have hb : best_of traces = z.2.2.1 := (heq z hval).symm
      unfold train
      rw [hval, hb]
      rfl
  · simp only [store_points, dget_dset_self]

/-- C8 witness: a single well-formed one-step episode with reward 5. -/
theorem claim_C8_witness :
    train 1 1 1 0 1 defaultDirections (fun _ => 0) (fun _ => 0)
        "team" "world" [] [sampleTrace]
      = Option.some (best_of [sampleTrace],
          store_points [] "team" "world" (best_of [sampleTrace])) ∧
    dget (dget (store_points [] "team" "world" (best_of [sampleTrace]))
        "team" ⟨.fin 0, []⟩).by_world "world" (.fin 0) = best_of [sampleTrace] :=
  claim_C8_best_reward 1 1 1 0 1 defaultDirections (fun _ => 0) (fun _ => 0)
    "team" "world" [] [sampleTrace] (by decide)

/-- C9: when a move result lacks the reward, completion, or position
field, processing of that transition substitutes the benign defaults
(reward 0, completion false, empty position) — the step computes the
same values as with the defaults supplied explicitly, and a missing
completion flag means the loop continues; a location result lacking the
position behaves as an explicit empty position. -/
theorem claim_C9_missing_fields (Q : QTable PyList) (alpha gamma : ℚ)
    (directions : List Dir) (sk : PyList) (move : Dir) (total : ℚ)
    (r : Option ℚ) (c : Option Bool) (p : Option (List Int))
    (w lw : Option PyVal) :
    trans_step Q alpha gamma directions sk move total ⟨Option.none, c, p, w⟩
      = trans_step Q alpha gamma directions sk move total ⟨Option.some 0, c, p, w⟩ ∧
    trans_step Q alpha gamma directions sk move total ⟨r, Option.none, p, w⟩
      = trans_step Q alpha gamma directions sk move total ⟨r, Option.some false, p, w⟩ ∧
    trans_step Q alpha gamma directions sk move total ⟨r, c, Option.none, w⟩
      = trans_step Q alpha gamma directions sk move total ⟨r, c, Option.some [], w⟩ ∧
    (trans_step Q alpha gamma directions sk move total ⟨r, Option.none, p, w⟩).done
      = false ∧
    episode_init ⟨lw, Option.none⟩ = episode_init ⟨lw, Option.some []⟩ :=
  ⟨rfl, rfl, rfl, rfl, rfl⟩

/-- C10: with zero configured episodes `train` performs no episode,
returns negative infinity as the best reward, and stores negative infinity
in the per-world persistence record. -/
theorem claim_C10_zero_episodes (alpha gamma epsilon min_epsilon decay_rate : ℚ)
    (directions : List Dir) (coins : ℕ → ℚ) (picks : ℕ → ℕ)
    (team_id world_id : String) (data : PointsData)
    (traces : List EpisodeTrace) (h : traces.length = 0) :
    train alpha gamma epsilon min_epsilon decay_rate directions coins picks
        team_id world_id data traces
      = Option.some (.negInf, store_points data team_id world_id .negInf) ∧
    dget (dget (store_points data team_id world_id .negInf)
        team_id ⟨.fin 0, []⟩).by_world world_id (.fin 0) = NegInfRat.negInf := by
  have he : traces = [] := List.length_eq_zero.mp h
  subst he
  constructor
  · rfl
  · simp only [store_points, dget_dset_self]

/-- C10 witness: an empty episode list. -/
theorem claim_C10_witness :
    train 1 1 1 0 1 defaultDirections (fun _ => 0) (fun _ => 0)
        "team" "world" [] []
      = Option.some (.negInf, store_points [] "team" "world" .negInf) ∧
    dget (dget (store_points [] "team" "world" .negInf)
        "team" ⟨.fin 0, []⟩).by_world "world" (.fin 0) = NegInfRat.negInf :=
  claim_C10_zero_episodes 1 1 1 0 1 defaultDirections (fun _ => 0) (fun _ => 0)
    "team" "world" [] [] (by decide)

end RLClient
